import Mathlib

/-
  Shallow embedding of the path-planning core of DBSplan
  (src/path_planning.py) and verification of its specification.

  Modelling conventions:
  * Python/numpy double-precision floats are modelled by exact rationals
    (every IEEE double is a rational number; float rounding error is not
    modelled).  The direction vectors built by `calculate_all_lines`
    involve a Euclidean norm, so that function is embedded over ℝ.
  * numpy 3-D volumes are modelled as total functions from integer voxel
    triples; a separate bounds-checked access (`lookupB`) models the raw
    numpy lookup, which raises IndexError for an index beyond the extent
    and wraps a negative index (Python semantics).
  * Python `int(...)` / numpy `astype(int)` truncate toward zero
    (`ratTrunc`, `intCastR`); `np.sign` is `ratSign`.
  * The iterative voxel walk (the `while ((target - current) * sign > 0).any()`
    loops at path_planning.py:111-127 and 194-210) is embedded as a
    fuel-indexed recursion `walkAux`; `walkCount` is a closed-form fuel
    bound, and `walkAux_ge_count` proves any fuel of at least `walkCount`
    yields the same list, so `walkPts` is exactly the unbounded loop.
  * In-place numpy mutation is modelled once more, explicitly, by a heap
    of numbered arrays (`Heap`): every numpy array creation allocates a
    fresh slot and every `arr[...] = ...` statement writes to the slot of
    the array it syntactically targets.  The `*_heap` functions re-embed
    the four core functions at that level to settle the frame claim.
-/

namespace PathPlanning

/-- Python `int(x)` / numpy float→int cast: truncation toward zero. -/
def ratTrunc (q : ℚ) : ℤ := if 0 ≤ q then ⌊q⌋ else ⌈q⌉

/-- numpy `np.sign` on one float component. -/
def ratSign (q : ℚ) : ℚ := if 0 < q then 1 else if q < 0 then -1 else 0

/-- A 3-vector of floats (modelled as rationals). -/
structure V3 where
  x : ℚ
  y : ℚ
  z : ℚ
deriving DecidableEq

/-- An integer voxel coordinate. -/
structure P3 where
  x : ℤ
  y : ℤ
  z : ℤ
deriving DecidableEq

/-- Componentwise vector addition (`current_point + direction`). -/
def vadd (a b : V3) : V3 := ⟨a.x + b.x, a.y + b.y, a.z + b.z⟩

/-- `np.array(v, dtype=int)`: componentwise truncation toward zero. -/
def truncV (v : V3) : P3 := ⟨ratTrunc v.x, ratTrunc v.y, ratTrunc v.z⟩

/-- `np.array(p, dtype=float)`: an integer coordinate viewed as floats. -/
def intV (p : P3) : V3 := ⟨(p.x : ℚ), (p.y : ℚ), (p.z : ℚ)⟩

/-- The point reached after `k` additions of the direction vector. -/
def stepN (e d : V3) (k : ℕ) : V3 :=
  ⟨e.x + (k : ℚ) * d.x, e.y + (k : ℚ) * d.y, e.z + (k : ℚ) * d.z⟩

/-- Loop guard of both voxel walks:
    `((target_point - current_point) * direction_sign > zeros).any()`
    (path_planning.py:111-113 and 194-196). -/
def stepCond (d T c : V3) : Bool :=
  decide (0 < (T.x - c.x) * ratSign d.x) ||
    decide (0 < (T.y - c.y) * ratSign d.y) ||
      decide (0 < (T.z - c.z) * ratSign d.z)

/-- Fuel-indexed unfolding of the walk loop; returns the list of positions
    probed (each probed position is reached after at least one addition of
    the direction vector to the entry point, exactly as in the source). -/
def walkAux (d T : V3) : V3 → ℕ → List V3
  | _, 0 => []
  | c, n + 1 => if stepCond d T c then vadd c d :: walkAux d T (vadd c d) n else []

/-- Closed-form count of iterations the walk loop performs along one axis:
    the least `k` with `(T - (e + k·d)) · sign d ≤ 0`. -/
def axisSteps (d e T : ℚ) : ℕ := if d = 0 then 0 else (max 0 ⌈(T - e) / d⌉).toNat

/-- Fuel bound for the whole walk: the loop runs while ANY axis guard holds,
    so it runs `max` over the three per-axis counts iterations. -/
def walkCount (d e T : V3) : ℕ :=
  max (max (axisSteps d.x e.x T.x) (axisSteps d.y e.y T.y)) (axisSteps d.z e.z T.z)

/-- The exact sequence of float positions probed by the loop. -/
def walkPts (d e T : V3) : List V3 := walkAux d T e (walkCount d e T)

/-- The voxels probed: `int()`-truncated positions (path_planning.py:118-122,
    201-205). -/
def walkProbes (d e T : V3) : List P3 := (walkPts d e T).map truncV

/-- One row of a trajectory array: `[direction, start_point, stop_point]`,
    all stored as floats (path_planning.py:61-62). -/
structure TrajRow where
  r0 : V3
  r1 : V3
  r2 : V3
deriving DecidableEq

/-- The voxels probed by the walk of one trajectory row: the walk starts at
    `np.array(entry_point, dtype=float)` where `entry_point` and
    `target_point` are the `dtype=int` casts of rows 1 and 2
    (path_planning.py:94-100 and 177-183). -/
def probesOf (tr : TrajRow) : List P3 :=
  walkProbes tr.r0 (intV (truncV tr.r1)) (intV (truncV tr.r2))

/-- A row of the `calculate_valid_lines` output arrays
    (`[direction, entry_point, target_point]`, the latter two integral). -/
structure VRow where
  d : V3
  e : P3
  t : P3
deriving DecidableEq

/-- The all-zeros row that initializes each `valid_paths` array
    (path_planning.py:86). -/
def zeroVRow : VRow := ⟨⟨0, 0, 0⟩, ⟨0, 0, 0⟩, ⟨0, 0, 0⟩⟩

/-- The insert built at path_planning.py:133-135. -/
def processV (tr : TrajRow) : VRow := ⟨tr.r0, truncV tr.r1, truncV tr.r2⟩

/-- `path_ok` after the collision walk of one trajectory: true iff no probed
    voxel of the collision map is set (the source breaks at the first hit;
    short-circuiting does not change the value). -/
def trajOk (mask : P3 → Bool) (tr : TrajRow) : Bool :=
  (probesOf tr).all fun p => !mask p

/-- The per-target accumulator after all entry points: a kept row is
    PREPENDED (`np.concatenate((insert, valid_paths[tid]))`,
    path_planning.py:138-141), so the accumulator holds the kept rows in
    reverse insertion order with the zeros row last. -/
def validAccum (mask : P3 → Bool) (rows : List TrajRow) : List VRow :=
  rows.foldl (fun acc tr => if trajOk mask tr then processV tr :: acc else acc)
    [zeroVRow]

/-- The returned per-target array: `valid_paths[target_id][1:, :, :]`
    (path_planning.py:144) removes the FIRST row of the accumulator. -/
def validLinesTarget (mask : P3 → Bool) (rows : List TrajRow) : List VRow :=
  (validAccum mask rows).drop 1

/-- `calculate_valid_lines` (path_planning.py:72-146), list-of-targets form
    (the function first wraps a bare array into a singleton list). -/
def calculate_valid_lines (paths : List (List TrajRow)) (mask : P3 → Bool) :
    List (List VRow) :=
  paths.map (validLinesTarget mask)

/-- The margin computed for one trajectory: `min_margin` starts at `10.0`
    and is lowered to every smaller sampled distance-map value
    (path_planning.py:189-210). -/
def marginOf (dmap : P3 → ℚ) (tr : TrajRow) : ℚ :=
  (probesOf tr).foldl (fun mm p => if dmap p < mm then dmap p else mm) 10

/-- A row of the `generate_margin_trajectories` output arrays
    (`[direction, entry, target, [min_margin]*3]`, path_planning.py:216-219). -/
structure MRow where
  d : V3
  e : P3
  t : P3
  m : ℚ
deriving DecidableEq

/-- The all-zeros row that initializes each `margin_trajectories` array
    (path_planning.py:164-169). -/
def zeroMRow : MRow := ⟨⟨0, 0, 0⟩, ⟨0, 0, 0⟩, ⟨0, 0, 0⟩, 0⟩

/-- The insert built at path_planning.py:216-219. -/
def processM (dmap : P3 → ℚ) (tr : TrajRow) : MRow :=
  ⟨tr.r0, truncV tr.r1, truncV tr.r2, marginOf dmap tr⟩

/-- The per-target accumulator after all entry points: a row is kept iff
    `min_margin > margin` and is PREPENDED (path_planning.py:214-225). -/
def marginAccum (dmap : P3 → ℚ) (marg : ℚ) (rows : List TrajRow) : List MRow :=
  rows.foldl (fun acc tr => if marg < marginOf dmap tr then processM dmap tr :: acc else acc)
    [zeroMRow]

/-- The returned per-target array: `margin_trajectories[target_id][1:, :, :]`
    (path_planning.py:228-229) removes the FIRST row of the accumulator. -/
def marginTarget (dmap : P3 → ℚ) (marg : ℚ) (rows : List TrajRow) : List MRow :=
  (marginAccum dmap marg rows).drop 1

/-- `generate_margin_trajectories` (path_planning.py:149-231), list form;
    `marg` is the `margin` parameter (default 0.0 in the source). -/
def generate_margin_trajectories (trajs : List (List TrajRow)) (dmap : P3 → ℚ)
    (marg : ℚ) : List (List MRow) :=
  trajs.map (marginTarget dmap marg)

/-- Python wrapping of a negative index into an axis of length `n`. -/
def wrapIdx (n : ℕ) (i : ℤ) : ℤ := if 0 ≤ i then i else i + (n : ℤ)

/-- A numpy integer index into an axis of length `n` is accepted iff
    `-n ≤ i < n`; otherwise IndexError is raised. -/
def inBounds (n : ℕ) (i : ℤ) : Bool := decide (-(n : ℤ) ≤ i) && decide (i < (n : ℤ))

/-- The raw numpy volume lookup of the source (path_planning.py:118-122 and
    201-205 perform NO bounds handling): `none` models the IndexError raised
    beyond the extent, a negative index silently wraps. -/
def lookupB (n1 n2 n3 : ℕ) (data : P3 → Bool) (p : P3) : Option Bool :=
  if inBounds n1 p.x && inBounds n2 p.y && inBounds n3 p.z then
    some (data ⟨wrapIdx n1 p.x, wrapIdx n2 p.y, wrapIdx n3 p.z⟩)
  else none

/-- The collision walk of `calculate_valid_lines` run against a FINITE volume
    of extent `n1 × n2 × n3` with the raw numpy lookup; `none` models the
    unhandled IndexError, `some b` a normal loop exit with `path_ok = b`. -/
def pathOkBounded (n1 n2 n3 : ℕ) (data : P3 → Bool) (d T : V3) : V3 → ℕ → Option Bool
  | _, 0 => some true
  | c, n + 1 =>
    if stepCond d T c then
      match lookupB n1 n2 n3 data (truncV (vadd c d)) with
      | none => none
      | some b => if b then some false else pathOkBounded n1 n2 n3 data d T (vadd c d) n
    else some true

/-- `generate_entry_points` (path_planning.py:324-353), modelled on the raw
    nonzero-coordinate list extracted from the entry-point mask (the nifti
    load and `np.nonzero`/`swapaxes` extraction are I/O plus library calls;
    `pts` is their result, in the mask's natural index order).  Every one of
    the `n` loop iterations stores `pts[(len(pts) // n) * i]`; `none` models
    the IndexError raised when that index is out of range (which happens
    exactly when `pts` is empty and `n > 0`). -/
def generate_entry_points (pts : List P3) (n : ℕ) : Option (List P3) :=
  let ids := (List.range n).map fun i => pts.length / n * i
  if ids.all fun j => decide (j < pts.length) then
    some (ids.map fun j => pts.getD j ⟨0, 0, 0⟩)
  else none

/-- `vox_dim = np.mean(np.absolute(aff.diagonal()[:-1]))`
    (path_planning.py:314): the mean absolute value of the three spatial
    diagonal entries of the affine. -/
def voxDim (a0 a1 a2 : ℚ) : ℚ := (|a0| + |a1| + |a2|) / 3

/-- `generate_distance_map` (path_planning.py:302-321).  The exact Euclidean
    distance transform is scipy library code (a black box per the spec), so
    it enters as the oracle `edt` giving the voxel-unit distance of each
    voxel to the nearest forbidden voxel; the function scales it by the
    voxel size and clamps at `cutoff`
    (`distance_map[distance_map > cutoff] = cutoff`). -/
def generate_distance_map (edt : P3 → ℚ) (a0 a1 a2 cutoff : ℚ) : P3 → ℚ :=
  fun p =>
    if edt p * voxDim a0 a1 a2 > cutoff then cutoff else edt p * voxDim a0 a1 a2

/-- The contract of `scipy.ndimage.morphology.distance_transform_edt (1 - mask)`:
    values are nonnegative, and zero wherever `1 - mask` is zero, i.e. at
    every forbidden voxel. -/
def edtOk (edt : P3 → ℚ) (mask : P3 → Bool) : Prop :=
  (∀ p, 0 ≤ edt p) ∧ ∀ p, mask p = true → edt p = 0

/-- A 3-vector of reals, for `calculate_all_lines` where the float Euclidean
    norm appears. -/
structure R3 where
  x : ℝ
  y : ℝ
  z : ℝ

/-- `np.linalg.norm` of a 3-vector. -/
noncomputable def npLinalgNorm (v : R3) : ℝ := Real.sqrt (v.x ^ 2 + v.y ^ 2 + v.z ^ 2)

/-- `direction = (target_point - entry_point) / distance`
    (path_planning.py:53-54). -/
noncomputable def directionOf (target entry : R3) : R3 :=
  let dist := npLinalgNorm ⟨target.x - entry.x, target.y - entry.y, target.z - entry.z⟩
  ⟨(target.x - entry.x) / dist, (target.y - entry.y) / dist, (target.z - entry.z) / dist⟩

/-- numpy float→int cast over ℝ: truncation toward zero. -/
noncomputable def intCastR (r : ℝ) : ℤ := if 0 ≤ r then ⌊r⌋ else ⌈r⌉

/-- `stop_point = np.array(target_point + direction * (overshoot / voxel_size),
    dtype=int)` (path_planning.py:57-59). -/
noncomputable def stop_point (target entry : R3) (overshoot voxel_size : ℝ) : P3 :=
  let dir := directionOf target entry
  ⟨intCastR (target.x + dir.x * (overshoot / voxel_size)),
    intCastR (target.y + dir.y * (overshoot / voxel_size)),
    intCastR (target.z + dir.z * (overshoot / voxel_size))⟩

/-- Comparison definition following the SPEC's words (section 4.3 / property 9):
    `terminal = round(target + direction * (overshoot_mm / voxel_size_mm))`,
    each component rounded to the nearest integer. -/
noncomputable def specRoundTerminal (target entry : R3) (overshoot voxel_size : ℝ) : P3 :=
  let dir := directionOf target entry
  ⟨⌊target.x + dir.x * (overshoot / voxel_size) + 1 / 2⌋,
    ⌊target.y + dir.y * (overshoot / voxel_size) + 1 / 2⌋,
    ⌊target.z + dir.z * (overshoot / voxel_size) + 1 / 2⌋⟩

/-- One row stored by `calculate_all_lines`
    (`[direction, start_point, stop_point]`, path_planning.py:61-62;
    the int-typed stop point is stored back into a float array). -/
structure ARow where
  dir : R3
  start : R3
  stop : R3

/-- The all-zeros row of the fresh `trajectory_array` (path_planning.py:47). -/
noncomputable def zeroARow : ARow := ⟨⟨0, 0, 0⟩, ⟨0, 0, 0⟩, ⟨0, 0, 0⟩⟩

/-- The row computed for one target × entry pair (path_planning.py:49-62). -/
noncomputable def mkARow (tp ep : R3) (overshoot voxel : ℝ) : ARow :=
  let st := stop_point tp ep overshoot voxel
  ⟨directionOf tp ep, ep, ⟨(st.x : ℝ), (st.y : ℝ), (st.z : ℝ)⟩⟩

/-- `calculate_all_lines` (path_planning.py:31-69), list-of-targets form
    (with a single target the source returns `target_list[0]` instead of the
    singleton list; the rows are the same). -/
noncomputable def calculate_all_lines (targets entries : List R3)
    (overshoot voxel : ℝ) : List (List ARow) :=
  targets.map fun tp => entries.map fun ep => mkARow tp ep overshoot voxel

/-- Concrete sample trajectory: direction (1,0,0), entry (0,0,0), stop (2,0,0). -/
def trAx : TrajRow := ⟨⟨1, 0, 0⟩, ⟨0, 0, 0⟩, ⟨2, 0, 0⟩⟩

/-- Sample trajectory with sub-unit direction (2/5,0,0). -/
def trFrac : TrajRow := ⟨⟨2 / 5, 0, 0⟩, ⟨0, 0, 0⟩, ⟨1, 0, 0⟩⟩

/-- Sample unit-x trajectory at height `j`. -/
def trRowAt (j : ℤ) : TrajRow := ⟨⟨1, 0, 0⟩, ⟨0, (j : ℚ), 0⟩, ⟨2, (j : ℚ), 0⟩⟩

/-- Constant distance map of value 12. -/
def dmap12 : P3 → ℚ := fun _ => 12

/-- Distance map with value 8 at y = 0, 3 at y = 1, 5 elsewhere. -/
def dmapYsplit : P3 → ℚ := fun p => if p.y = 0 then 8 else if p.y = 1 then 3 else 5

/-- Collision map with no forbidden voxel. -/
def maskFree : P3 → Bool := fun _ => false

/-- Collision map whose only forbidden voxel is the origin. -/
def maskOrigin : P3 → Bool := fun p => decide (p = ⟨0, 0, 0⟩)

/-- Heap contents: the kinds of numpy arrays handled by the four core
    functions. -/
inductive Arr where
  | aNone : Arr
  | aPt : R3 → Arr
  | aPts : List R3 → Arr
  | aRows : List ARow → Arr
  | aTraj : List TrajRow → Arr
  | aV : List VRow → Arr
  | aM : List MRow → Arr
  | aVolB : (P3 → Bool) → Arr
  | aVolQ : (P3 → ℚ) → Arr

/-- A heap of numbered numpy arrays; ids below the allocation counter belong
    to the caller, fresh arrays are allocated at the counter. -/
def Heap : Type := ℕ → Arr

/-- Writing array `a` into slot `i` (both allocation of a fresh array and an
    in-place `arr[...] = ...` statement on an existing one). -/
def hwrite (h : Heap) (i : ℕ) (a : Arr) : Heap := fun j => if j = i then a else h j

/-- Read a single-point array. -/
noncomputable def getPt (h : Heap) (i : ℕ) : R3 :=
  match h i with
  | Arr.aPt v => v
  | _ => ⟨0, 0, 0⟩

/-- Read a point-list array. -/
def getPts (h : Heap) (i : ℕ) : List R3 :=
  match h i with
  | Arr.aPts l => l
  | _ => []

/-- Read a `calculate_all_lines`-style trajectory array. -/
def getRows (h : Heap) (i : ℕ) : List ARow :=
  match h i with
  | Arr.aRows l => l
  | _ => []

/-- Read an input trajectory array. -/
def getTraj (h : Heap) (i : ℕ) : List TrajRow :=
  match h i with
  | Arr.aTraj l => l
  | _ => []

/-- Read a valid-lines output array. -/
def getV (h : Heap) (i : ℕ) : List VRow :=
  match h i with
  | Arr.aV l => l
  | _ => []

/-- Read a margin output array. -/
def getM (h : Heap) (i : ℕ) : List MRow :=
  match h i with
  | Arr.aM l => l
  | _ => []

/-- Read a boolean volume. -/
def getVolB (h : Heap) (i : ℕ) : P3 → Bool :=
  match h i with
  | Arr.aVolB f => f
  | _ => fun _ => false

/-- Read a scalar volume. -/
def getVolQ (h : Heap) (i : ℕ) : P3 → ℚ :=
  match h i with
  | Arr.aVolQ f => f
  | _ => fun _ => 0

/-- One entry-point iteration of `calculate_all_lines`: the in-place write
    `trajectory_array[entry_id, :, :] = np.array([direction, start, stop])`
    into the fresh array at slot `slot` (path_planning.py:61-62). -/
noncomputable def calcAllInnerStep (tp : R3) (entries : List R3)
    (overshoot voxel : ℝ) (slot : ℕ) (hh : Heap) (eid : ℕ) : Heap :=
  hwrite hh slot
    (Arr.aRows
      ((getRows hh slot).set eid
        (mkARow tp (entries.getD eid ⟨0, 0, 0⟩) overshoot voxel)))

/-- One target iteration of `calculate_all_lines`: allocate the fresh
    `trajectory_array = np.zeros(...)` (path_planning.py:47), fill it row by
    row, append its id to `target_list`. -/
noncomputable def calcAllOuterStep (entriesId : ℕ) (overshoot voxel : ℝ)
    (st : Heap × ℕ × List ℕ) (tid : ℕ) : Heap × ℕ × List ℕ :=
  let entries := getPts st.1 entriesId
  let tp := getPt st.1 tid
  let h1 := hwrite st.1 st.2.1 (Arr.aRows (List.replicate entries.length zeroARow))
  let h2 := (List.range entries.length).foldl
    (calcAllInnerStep tp entries overshoot voxel st.2.1) h1
  (h2, st.2.1 + 1, st.2.2 ++ [st.2.1])

/-- Heap-level embedding of `calculate_all_lines` (path_planning.py:31-69):
    per target, `np.zeros` allocates a fresh `trajectory_array` and each
    entry-point iteration writes one row of it in place; the input arrays
    (`target_points[...]` at `targetIds`, `entry_points` at `entriesId`)
    are only read. -/
noncomputable def calculate_all_lines_heap (h : Heap) (next : ℕ)
    (targetIds : List ℕ) (entriesId : ℕ) (overshoot voxel : ℝ) :
    Heap × ℕ × List ℕ :=
  targetIds.foldl (calcAllOuterStep entriesId overshoot voxel) (h, next, [])

/-- One entry-point iteration of `calculate_valid_lines`: on a kept
    trajectory, `np.concatenate((insert, valid_paths[tid]))` allocates a
    fresh array holding the prepended rows (path_planning.py:131-141); the
    local list slot is rebound to the fresh id. -/
def calcValidInnerStep (mapId : ℕ) (ist : Heap × ℕ × ℕ) (tr : TrajRow) :
    Heap × ℕ × ℕ :=
  if trajOk (getVolB ist.1 mapId) tr then
    (hwrite ist.1 ist.2.1 (Arr.aV (processV tr :: getV ist.1 ist.2.2)),
      ist.2.1 + 1, ist.2.1)
  else ist

/-- One target iteration of `calculate_valid_lines`: run the entry loop, then
    `valid_paths[target_id] = valid_paths[target_id][1:, :, :]`
    (path_planning.py:144) — the slice is a fresh view of the rows after the
    first. -/
def calcValidOuterStep (pathIds : List ℕ) (mapId : ℕ)
    (st : Heap × ℕ × List ℕ) (tid : ℕ) : Heap × ℕ × List ℕ :=
  let rows := getTraj st.1 (pathIds.getD tid 0)
  let inner := rows.foldl (calcValidInnerStep mapId) (st.1, st.2.1, st.2.2.getD tid 0)
  let h' := hwrite inner.1 inner.2.1 (Arr.aV ((getV inner.1 inner.2.2).drop 1))
  (h', inner.2.1 + 1, st.2.2.set tid inner.2.1)

/-- Heap-level embedding of `calculate_valid_lines` (path_planning.py:72-146):
    one `np.zeros` allocation shared by every slot of the `valid_paths` list,
    then per kept trajectory a fresh concatenated array, and finally a fresh
    sliced array per target; the input trajectory arrays (`pathIds`) and the
    collision map (`mapId`) are only read. -/
def calculate_valid_lines_heap (h : Heap) (next : ℕ) (pathIds : List ℕ)
    (mapId : ℕ) : Heap × ℕ × List ℕ :=
  let h0 := hwrite h next (Arr.aV [zeroVRow])
  (List.range pathIds.length).foldl (calcValidOuterStep pathIds mapId)
    (h0, next + 1, List.replicate pathIds.length next)

/-- One entry-point iteration of `generate_margin_trajectories`
    (path_planning.py:214-225). -/
def marginInnerStep (dmapId : ℕ) (marg : ℚ) (ist : Heap × ℕ × ℕ)
    (tr : TrajRow) : Heap × ℕ × ℕ :=
  if marg < marginOf (getVolQ ist.1 dmapId) tr then
    (hwrite ist.1 ist.2.1
      (Arr.aM (processM (getVolQ ist.1 dmapId) tr :: getM ist.1 ist.2.2)),
      ist.2.1 + 1, ist.2.1)
  else ist

/-- One target iteration of `generate_margin_trajectories`
    (path_planning.py:172-229). -/
def marginOuterStep (trajIds : List ℕ) (dmapId : ℕ) (marg : ℚ)
    (st : Heap × ℕ × List ℕ) (tid : ℕ) : Heap × ℕ × List ℕ :=
  let rows := getTraj st.1 (trajIds.getD tid 0)
  let inner := rows.foldl (marginInnerStep dmapId marg) (st.1, st.2.1, st.2.2.getD tid 0)
  let h' := hwrite inner.1 inner.2.1 (Arr.aM ((getM inner.1 inner.2.2).drop 1))
  (h', inner.2.1 + 1, st.2.2.set tid inner.2.1)

/-- Heap-level embedding of `generate_margin_trajectories`
    (path_planning.py:149-231), same allocation pattern as
    `calculate_valid_lines_heap`; the input trajectory arrays (`trajIds`)
    and the distance map (`dmapId`) are only read. -/
def generate_margin_trajectories_heap (h : Heap) (next : ℕ) (trajIds : List ℕ)
    (dmapId : ℕ) (marg : ℚ) : Heap × ℕ × List ℕ :=
  let h0 := hwrite h next (Arr.aM [zeroMRow])
  (List.range trajIds.length).foldl (marginOuterStep trajIds dmapId marg)
    (h0, next + 1, List.replicate trajIds.length next)

/-- Heap-level embedding of `generate_distance_map` (path_planning.py:302-321):
    `distance_map = morph.distance_transform_edt(1 - mask) * vox_dim` allocates
    a fresh array (the scipy call `edtf`, applied to the complement of the
    heap-read mask, is an oracle for the library black box), then
    `distance_map[distance_map > cutoff] = cutoff` writes THAT array in place;
    the mask at `maskId` is only read. -/
def generate_distance_map_heap (h : Heap) (next : ℕ) (maskId : ℕ)
    (edtf : (P3 → ℚ) → P3 → ℚ) (a0 a1 a2 cutoff : ℚ) : Heap × ℕ × ℕ :=
  let dm0 : P3 → ℚ := fun p => edtf (fun q => 1 - getVolQ h maskId q) p * voxDim a0 a1 a2
  let h1 := hwrite h next (Arr.aVolQ dm0)
  let h2 := hwrite h1 next
    (Arr.aVolQ fun p =>
      if getVolQ h1 next p > cutoff then cutoff else getVolQ h1 next p)
  (h2, next + 1, next)

/-! Walk lemmas: the fuel-indexed loop `walkAux` with fuel `walkCount`
    is exactly the unbounded source loop. -/

lemma stepN_add_one (e d : V3) (j : ℕ) : vadd (stepN e d j) d = stepN e d (j + 1) := by
  unfold vadd stepN
  simp only [V3.mk.injEq]
  refine ⟨?_, ?_, ?_⟩ <;> push_cast <;> ring

lemma stepN_zero (e d : V3) : stepN e d 0 = e := by
  cases e
  simp [stepN]

lemma walkAux_zero (d T c : V3) : walkAux d T c 0 = [] := rfl

lemma walkAux_succ (d T c : V3) (n : ℕ) :
    walkAux d T c (n + 1) =
      if stepCond d T c then vadd c d :: walkAux d T (vadd c d) n else [] := rfl

lemma axisSteps_lt_iff (d e T : ℚ) (hd : d ≠ 0) (k : ℕ) :
    k < axisSteps d e T ↔ (k : ℚ) < (T - e) / d := by
  unfold axisSteps
  rw [if_neg hd]
  constructor
  · intro h
    have h' : (k : ℤ) < max 0 ⌈(T - e) / d⌉ := by omega
    have h'' : (k : ℤ) < ⌈(T - e) / d⌉ := by
      rcases lt_max_iff.mp h' with h0 | h0
      · exact absurd h0 (by omega)
      · exact h0
    rw [Int.lt_ceil] at h''
    exact_mod_cast h''
  · intro h
    have h' : (k : ℤ) < ⌈(T - e) / d⌉ := by
      rw [Int.lt_ceil]; exact_mod_cast h
    have h'' : (k : ℤ) < max 0 ⌈(T - e) / d⌉ := lt_max_of_lt_right h'
    omega

lemma axis_guard_iff (d e T : ℚ) (k : ℕ) :
    0 < (T - (e + (k : ℚ) * d)) * ratSign d ↔ k < axisSteps d e T := by
  rcases lt_trichotomy 0 d with hd | hd | hd
  · rw [axisSteps_lt_iff d e T hd.ne', lt_div_iff₀ hd]
    unfold ratSign
    rw [if_pos hd, mul_one]
    constructor <;> intro h <;> linarith
  · rw [← hd]
    simp [ratSign, axisSteps]
  · rw [axisSteps_lt_iff d e T hd.ne, lt_div_iff_of_neg hd]
    unfold ratSign
    rw [if_neg (not_lt.mpr hd.le), if_pos hd, mul_neg_one, neg_pos]
    constructor <;> intro h <;> linarith

lemma stepCond_stepN (d e T : V3) (k : ℕ) :
    stepCond d T (stepN e d k) = true ↔ k < walkCount d e T := by
  unfold stepCond stepN walkCount
  simp only [Bool.or_eq_true, decide_eq_true_eq]
  rw [axis_guard_iff, axis_guard_iff, axis_guard_iff, lt_max_iff, lt_max_iff]

lemma walkAux_run (d e T : V3) :
    ∀ (n j : ℕ), (∀ m, m < n → stepCond d T (stepN e d (j + m)) = true) →
      stepCond d T (stepN e d (j + n)) = false →
      walkAux d T (stepN e d j) n = (List.range n).map fun k => stepN e d (j + k + 1) := by
  intro n
  induction n with
  | zero => intro j _ _; rfl
  | succ n ih =>
    intro j hall hend
    have h0 : stepCond d T (stepN e d j) = true := by
      have := hall 0 (Nat.succ_pos n)
      simpa using this
    have hstep : vadd (stepN e d j) d = stepN e d (j + 1) := stepN_add_one e d j
    have hall' : ∀ m, m < n → stepCond d T (stepN e d (j + 1 + m)) = true := by
      intro m hm
      have := hall (m + 1) (by omega)
      rwa [show j + (m + 1) = j + 1 + m by omega] at this
    have hend' : stepCond d T (stepN e d (j + 1 + n)) = false := by
      rwa [show j + (n + 1) = j + 1 + n by omega] at hend
    rw [walkAux_succ, if_pos h0, hstep, ih (j + 1) hall' hend',
      List.range_succ_eq_map, List.map_cons, List.map_map]
    simp only [List.cons.injEq]
    refine ⟨?_, ?_⟩
    · norm_num
    · congr 1
      funext k
      simp only [Function.comp_apply]
      congr 1
      omega

lemma walkPts_eq_range (d e T : V3) :
    walkPts d e T = (List.range (walkCount d e T)).map fun k => stepN e d (k + 1) := by
  have h0 : stepN e d 0 = e := stepN_zero e d
  have hall : ∀ m, m < walkCount d e T → stepCond d T (stepN e d (0 + m)) = true := by
    intro m hm
    rw [Nat.zero_add]
    exact (stepCond_stepN d e T m).mpr hm
  have hend : stepCond d T (stepN e d (0 + walkCount d e T)) = false := by
    rw [Nat.zero_add]
    have : ¬ stepCond d T (stepN e d (walkCount d e T)) = true := by
      rw [stepCond_stepN]
      omega
    simpa using this
  have := walkAux_run d e T (walkCount d e T) 0 hall hend
  rw [h0] at this
  unfold walkPts
  rw [this]
  simp

lemma walkAux_stop (d e T : V3) :
    ∀ (n m j : ℕ), stepCond d T (stepN e d (j + n)) = false → n ≤ m →
      walkAux d T (stepN e d j) m = walkAux d T (stepN e d j) n := by
  intro n
  induction n with
  | zero =>
    intro m j hstop _
    have h0 : stepCond d T (stepN e d j) = false := by simpa using hstop
    cases m with
    | zero => rfl
    | succ m => rw [walkAux_zero, walkAux_succ, if_neg (by simp [h0])]
  | succ n ih =>
    intro m j hstop hle
    cases m with
    | zero => omega
    | succ m =>
      by_cases hc : stepCond d T (stepN e d j) = true
      · rw [walkAux_succ, if_pos hc, walkAux_succ, if_pos hc, stepN_add_one]
        have hstop' : stepCond d T (stepN e d (j + 1 + n)) = false := by
          rwa [show j + (n + 1) = j + 1 + n by omega] at hstop
        rw [ih m (j + 1) hstop' (by omega)]
      · have hc' : stepCond d T (stepN e d j) = false := by simpa using hc
        rw [walkAux_succ, if_neg (by simp [hc']), walkAux_succ, if_neg (by simp [hc'])]

/-- Faithfulness of the fuel choice: ANY fuel of at least `walkCount` gives
    the same probe list, so `walkPts` is the limit of the source's unbounded
    `while` loop. -/
lemma walkAux_ge_count (d e T : V3) (m : ℕ) (hm : walkCount d e T ≤ m) :
    walkAux d T e m = walkPts d e T := by
  have h0 : stepN e d 0 = e := stepN_zero e d
  have hstop : stepCond d T (stepN e d (0 + walkCount d e T)) = false := by
    rw [Nat.zero_add]
    have : ¬ stepCond d T (stepN e d (walkCount d e T)) = true := by
      rw [stepCond_stepN]
      omega
    simpa using this
  have := walkAux_stop d e T (walkCount d e T) m 0 hstop hm
  rw [h0] at this
  exact this

/-! Fold lemmas shared by the valid-lines and margin accumulators. -/

lemma foldl_keep_mem {α β : Type} (c : α → Prop) [DecidablePred c] (f : α → β) :
    ∀ (l : List α) (init : List β) (r : β), r ∈ init →
      r ∈ l.foldl (fun acc a => if c a then f a :: acc else acc) init := by
  intro l
  induction l with
  | nil => intro init r h; exact h
  | cons a l ih =>
    intro init r h
    rw [List.foldl_cons]
    apply ih
    by_cases hc : c a
    · rw [if_pos hc]
      exact List.mem_cons_of_mem _ h
    · rw [if_neg hc]
      exact h

lemma foldl_mem_cases {α β : Type} (c : α → Prop) [DecidablePred c] (f : α → β) :
    ∀ (l : List α) (init : List β) (r : β),
      r ∈ l.foldl (fun acc a => if c a then f a :: acc else acc) init →
      r ∈ init ∨ ∃ a ∈ l, r = f a := by
  intro l
  induction l with
  | nil => intro init r h; exact Or.inl h
  | cons a l ih =>
    intro init r h
    rw [List.foldl_cons] at h
    rcases ih _ r h with h' | ⟨b, hb, rfl⟩
    · by_cases hc : c a
      · rw [if_pos hc] at h'
        rcases List.mem_cons.mp h' with rfl | h''
        · exact Or.inr ⟨a, List.mem_cons_self a l, rfl⟩
        · exact Or.inl h''
      · rw [if_neg hc] at h'
        exact Or.inl h'
    · exact Or.inr ⟨b, List.mem_cons_of_mem a hb, rfl⟩

lemma foldl_insert_mem {α β : Type} (c : α → Prop) [DecidablePred c] (f : α → β) :
    ∀ (l : List α) (init : List β) (a : α), a ∈ l → c a →
      f a ∈ l.foldl (fun acc x => if c x then f x :: acc else acc) init := by
  intro l
  induction l with
  | nil => intro init a h; exact absurd h (List.not_mem_nil a)
  | cons b l ih =>
    intro init a ha hc
    rw [List.foldl_cons]
    rcases List.mem_cons.mp ha with rfl | ha'
    · apply foldl_keep_mem
      rw [if_pos hc]
      exact List.mem_cons_self _ _
    · exact ih _ a ha' hc

lemma foldl_min_spec (g : P3 → ℚ) :
    ∀ (l : List P3) (a : ℚ),
      (l.foldl (fun mm p => if g p < mm then g p else mm) a = a ∨
        ∃ p ∈ l, l.foldl (fun mm p => if g p < mm then g p else mm) a = g p) ∧
      l.foldl (fun mm p => if g p < mm then g p else mm) a ≤ a ∧
      ∀ p ∈ l, l.foldl (fun mm p => if g p < mm then g p else mm) a ≤ g p := by
  intro l
  induction l with
  | nil =>
    intro a
    refine ⟨Or.inl rfl, le_refl a, ?_⟩
    intro p hp
    exact absurd hp (List.not_mem_nil p)
  | cons q l ih =>
    intro a
    simp only [List.foldl_cons]
    obtain ⟨hcase, hle, hall⟩ := ih (if g q < a then g q else a)
    have ha'le : (if g q < a then g q else a) ≤ a := by
      split_ifs with h
      · exact h.le
      · exact le_rfl
    have ha'q : (if g q < a then g q else a) ≤ g q := by
      split_ifs with h
      · exact le_rfl
      · exact le_of_not_lt h
    refine ⟨?_, le_trans hle ha'le, ?_⟩
    · rcases hcase with h | ⟨p, hp, h⟩
      · by_cases hq : g q < a
        · rw [if_pos hq] at h ⊢
          exact Or.inr ⟨q, List.mem_cons_self _ _, h⟩
        · rw [if_neg hq] at h ⊢
          exact Or.inl h
      · exact Or.inr ⟨p, List.mem_cons_of_mem _ hp, h⟩
    · intro p hp
      rcases List.mem_cons.mp hp with rfl | hp'
      · exact le_trans hle ha'q
      · exact hall p hp'

lemma hwrite_ne (h : Heap) (i j : ℕ) (a : Arr) (hij : j ≠ i) : hwrite h i a j = h j := by
  unfold hwrite
  rw [if_neg hij]

/-- Generic frame invariant for the heap folds: when every step keeps the
    allocation counter at or above `next` and leaves every slot below `next`
    untouched, so does the whole fold. -/
lemma foldl_frame_inv {α σ : Type} (next : ℕ) (heapOf : σ → Heap) (ctr : σ → ℕ)
    (step : σ → α → σ)
    (hstep : ∀ st a, next ≤ ctr st → next ≤ ctr (step st a) ∧
      ∀ j, j < next → heapOf (step st a) j = heapOf st j) :
    ∀ (l : List α) (st : σ), next ≤ ctr st →
      next ≤ ctr (l.foldl step st) ∧
        ∀ j, j < next → heapOf (l.foldl step st) j = heapOf st j := by
  intro l
  induction l with
  | nil => intro st h; exact ⟨h, fun j _ => rfl⟩
  | cons a l ih =>
    intro st hst
    rw [List.foldl_cons]
    obtain ⟨h1, h2⟩ := hstep st a hst
    obtain ⟨h3, h4⟩ := ih (step st a) h1
    exact ⟨h3, fun j hj => (h4 j hj).trans (h2 j hj)⟩

lemma calcAllInnerStep_frame (tp : R3) (entries : List R3) (o v : ℝ)
    (next nx : ℕ) (hnx : next ≤ nx) :
    ∀ (hh : Heap) (eid : ℕ), next ≤ next →
      next ≤ next ∧
        ∀ j, j < next → calcAllInnerStep tp entries o v nx hh eid j = hh j := by
  intro hh eid _
  refine ⟨le_refl next, fun j hj => ?_⟩
  unfold calcAllInnerStep
  exact hwrite_ne _ _ _ _ (by omega)

lemma calcAllOuterStep_frame (entriesId : ℕ) (o v : ℝ) (next : ℕ) :
    ∀ (st : Heap × ℕ × List ℕ) (tid : ℕ), next ≤ st.2.1 →
      next ≤ (calcAllOuterStep entriesId o v st tid).2.1 ∧
        ∀ j, j < next → (calcAllOuterStep entriesId o v st tid).1 j = st.1 j := by
  intro st tid hnx
  have hin := foldl_frame_inv (σ := Heap) next id (fun _ => next)
    (calcAllInnerStep (getPt st.1 tid) (getPts st.1 entriesId) o v st.2.1)
    (calcAllInnerStep_frame (getPt st.1 tid) (getPts st.1 entriesId) o v next st.2.1 hnx)
    (List.range (getPts st.1 entriesId).length)
    (hwrite st.1 st.2.1 (Arr.aRows (List.replicate (getPts st.1 entriesId).length zeroARow)))
    (le_refl next)
  exact ⟨Nat.le_succ_of_le hnx, fun j hj =>
    (hin.2 j hj).trans (hwrite_ne _ _ _ _ (by omega))⟩

lemma calculate_all_lines_heap_frame (h : Heap) (next : ℕ) (targetIds : List ℕ)
    (entriesId : ℕ) (o v : ℝ) (i : ℕ) (hi : i < next) :
    (calculate_all_lines_heap h next targetIds entriesId o v).1 i = h i := by
  have hfold := foldl_frame_inv next Prod.fst (fun st => st.2.1)
    (calcAllOuterStep entriesId o v) (calcAllOuterStep_frame entriesId o v next)
    targetIds (h, next, []) (le_refl next)
  exact hfold.2 i hi

lemma calcValidInnerStep_frame (mapId next : ℕ) :
    ∀ (ist : Heap × ℕ × ℕ) (tr : TrajRow), next ≤ ist.2.1 →
      next ≤ (calcValidInnerStep mapId ist tr).2.1 ∧
        ∀ j, j < next → (calcValidInnerStep mapId ist tr).1 j = ist.1 j := by
  intro ist tr hnx
  unfold calcValidInnerStep
  split_ifs with hc
  · exact ⟨Nat.le_succ_of_le hnx, fun j hj => hwrite_ne _ _ _ _ (by omega)⟩
  · exact ⟨hnx, fun j hj => rfl⟩

lemma calcValidOuterStep_frame (pathIds : List ℕ) (mapId next : ℕ) :
    ∀ (st : Heap × ℕ × List ℕ) (tid : ℕ), next ≤ st.2.1 →
      next ≤ (calcValidOuterStep pathIds mapId st tid).2.1 ∧
        ∀ j, j < next → (calcValidOuterStep pathIds mapId st tid).1 j = st.1 j := by
  intro st tid hnx
  have hin := foldl_frame_inv (σ := Heap × ℕ × ℕ) next Prod.fst (fun ist => ist.2.1)
    (calcValidInnerStep mapId) (calcValidInnerStep_frame mapId next)
    (getTraj st.1 (pathIds.getD tid 0)) (st.1, st.2.1, st.2.2.getD tid 0) hnx
  have h1 : next ≤ (List.foldl (calcValidInnerStep mapId)
      (st.1, st.2.1, st.2.2.getD tid 0) (getTraj st.1 (pathIds.getD tid 0))).2.1 := hin.1
  exact ⟨Nat.le_succ_of_le h1, fun j hj =>
    (hwrite_ne _ _ _ _ (by omega)).trans (hin.2 j hj)⟩

lemma calculate_valid_lines_heap_frame (h : Heap) (next : ℕ) (pathIds : List ℕ)
    (mapId : ℕ) (i : ℕ) (hi : i < next) :
    (calculate_valid_lines_heap h next pathIds mapId).1 i = h i := by
  have hfold := foldl_frame_inv next Prod.fst (fun st => st.2.1)
    (calcValidOuterStep pathIds mapId) (calcValidOuterStep_frame pathIds mapId next)
    (List.range pathIds.length)
    (hwrite h next (Arr.aV [zeroVRow]), next + 1, List.replicate pathIds.length next)
    (Nat.le_succ next)
  exact (hfold.2 i hi).trans (hwrite_ne _ _ _ _ (by omega))

lemma marginInnerStep_frame (dmapId : ℕ) (marg : ℚ) (next : ℕ) :
    ∀ (ist : Heap × ℕ × ℕ) (tr : TrajRow), next ≤ ist.2.1 →
      next ≤ (marginInnerStep dmapId marg ist tr).2.1 ∧
        ∀ j, j < next → (marginInnerStep dmapId marg ist tr).1 j = ist.1 j := by
  intro ist tr hnx
  unfold marginInnerStep
  split_ifs with hc
  · exact ⟨Nat.le_succ_of_le hnx, fun j hj => hwrite_ne _ _ _ _ (by omega)⟩
  · exact ⟨hnx, fun j hj => rfl⟩

lemma marginOuterStep_frame (trajIds : List ℕ) (dmapId : ℕ) (marg : ℚ) (next : ℕ) :
    ∀ (st : Heap × ℕ × List ℕ) (tid : ℕ), next ≤ st.2.1 →
      next ≤ (marginOuterStep trajIds dmapId marg st tid).2.1 ∧
        ∀ j, j < next → (marginOuterStep trajIds dmapId marg st tid).1 j = st.1 j := by
  intro st tid hnx
  have hin := foldl_frame_inv (σ := Heap × ℕ × ℕ) next Prod.fst (fun ist => ist.2.1)
    (marginInnerStep dmapId marg) (marginInnerStep_frame dmapId marg next)
    (getTraj st.1 (trajIds.getD tid 0)) (st.1, st.2.1, st.2.2.getD tid 0) hnx
  have h1 : next ≤ (List.foldl (marginInnerStep dmapId marg)
      (st.1, st.2.1, st.2.2.getD tid 0) (getTraj st.1 (trajIds.getD tid 0))).2.1 := hin.1
  exact ⟨Nat.le_succ_of_le h1, fun j hj =>
    (hwrite_ne _ _ _ _ (by omega)).trans (hin.2 j hj)⟩

lemma generate_margin_trajectories_heap_frame (h : Heap) (next : ℕ)
    (trajIds : List ℕ) (dmapId : ℕ) (marg : ℚ) (i : ℕ) (hi : i < next) :
    (generate_margin_trajectories_heap h next trajIds dmapId marg).1 i = h i := by
  have hfold := foldl_frame_inv next Prod.fst (fun st => st.2.1)
    (marginOuterStep trajIds dmapId marg) (marginOuterStep_frame trajIds dmapId marg next)
    (List.range trajIds.length)
    (hwrite h next (Arr.aM [zeroMRow]), next + 1, List.replicate trajIds.length next)
    (Nat.le_succ next)
  exact (hfold.2 i hi).trans (hwrite_ne _ _ _ _ (by omega))

lemma generate_distance_map_heap_frame (h : Heap) (next maskId : ℕ)
    (edtf : (P3 → ℚ) → P3 → ℚ) (a0 a1 a2 cutoff : ℚ) (i : ℕ) (hi : i < next) :
    (generate_distance_map_heap h next maskId edtf a0 a1 a2 cutoff).1 i = h i :=
  (hwrite_ne _ _ _ _ (by omega)).trans (hwrite_ne _ _ _ _ (by omega))

/-! Helper lemmas for the remaining claims. -/

lemma getD_mem (l : List P3) (j : ℕ) (d : P3) (h : j < l.length) : l.getD j d ∈ l := by
  induction l generalizing j with
  | nil => simp at h
  | cons a t ih =>
    cases j with
    | zero => simp
    | succ j =>
      rw [List.getD_cons_succ]
      exact List.mem_cons_of_mem a (ih j (by simpa using h))

lemma intCastR_eq (r : ℝ) (z : ℤ) (h0 : 0 ≤ r) (h1 : (z : ℝ) ≤ r) (h2 : r < z + 1) :
    intCastR r = z := by
  unfold intCastR
  rw [if_pos h0]
  exact Int.floor_eq_iff.mpr ⟨h1, h2⟩

lemma npLinalgNorm_eval (a b c s : ℝ) (hs : 0 ≤ s) (h : a ^ 2 + b ^ 2 + c ^ 2 = s ^ 2) :
    npLinalgNorm ⟨a, b, c⟩ = s := by
  unfold npLinalgNorm
  rw [show (R3.mk a b c).x = a from rfl, show (R3.mk a b c).y = b from rfl,
    show (R3.mk a b c).z = c from rfl, h, Real.sqrt_sq hs]

/-- Claim C1 (counterexample): as stated, "the attached margin equals the
    minimum DistanceField value sampled over the walk" is FALSE: with a
    constant distance map of value 12 both sampled values along `trAx` are
    12, yet the returned annotated row carries margin 10, because the
    source initializes `min_margin = 10.0` and only lowers it; the output
    also carries a trailing all-zeros row. -/
theorem margin_not_plain_min_cex :
    generate_margin_trajectories [[trAx, trAx]] dmap12 0 =
        [[⟨⟨1, 0, 0⟩, ⟨0, 0, 0⟩, ⟨2, 0, 0⟩, 10⟩, zeroMRow]] ∧
      probesOf trAx = [⟨1, 0, 0⟩, ⟨2, 0, 0⟩] ∧
      dmap12 ⟨1, 0, 0⟩ = 12 ∧ dmap12 ⟨2, 0, 0⟩ = 12 ∧ (10 : ℚ) ≠ 12 :=
  ⟨by with_unfolding_all decide, by with_unfolding_all decide, rfl, rfl, by with_unfolding_all decide⟩

/-- Claim C1 (amended and proved): every row returned by
    `generate_margin_trajectories` is either the spurious trailing all-zeros
    row or the processed form of some input trajectory whose attached margin
    is the minimum of 10.0 and the DistanceField values sampled along that
    trajectory's walk (the seed 10.0 caps the reported margin): the margin
    equals 10 or one of the sampled values, and is a lower bound of both. -/
theorem margin_rows_characterized
    (trajs : List (List TrajRow)) (dmap : P3 → ℚ) (marg : ℚ)
    (outT : List MRow) (hout : outT ∈ generate_margin_trajectories trajs dmap marg)
    (r : MRow) (hr : r ∈ outT) :
    r = zeroMRow ∨
      ∃ tlist ∈ trajs, ∃ tr ∈ tlist, r = processM dmap tr ∧
        (r.m = 10 ∨ ∃ p ∈ probesOf tr, r.m = dmap p) ∧
        r.m ≤ 10 ∧ ∀ p ∈ probesOf tr, r.m ≤ dmap p := by
  rw [generate_margin_trajectories, List.mem_map] at hout
  obtain ⟨tlist, htl, rfl⟩ := hout
  rw [marginTarget] at hr
  have hr' : r ∈ marginAccum dmap marg tlist := List.drop_subset 1 _ hr
  rw [marginAccum] at hr'
  rcases foldl_mem_cases (fun tr => marg < marginOf dmap tr) (processM dmap)
      tlist [zeroMRow] r hr' with h | ⟨tr, htr, rfl⟩
  · left
    simpa using h
  · right
    refine ⟨tlist, htl, tr, htr, rfl, ?_⟩
    have hm : (processM dmap tr).m = marginOf dmap tr := rfl
    rw [hm]
    unfold marginOf
    exact foldl_min_spec dmap (probesOf tr) 10

/-- Claim C1 witness: the amended characterization instantiated on the
    concrete two-trajectory input over the constant-12 distance map. -/
theorem margin_rows_characterized_witness :
    (⟨⟨1, 0, 0⟩, ⟨0, 0, 0⟩, ⟨2, 0, 0⟩, (10 : ℚ)⟩ : MRow) = zeroMRow ∨
      ∃ tlist ∈ [[trAx, trAx]], ∃ tr ∈ tlist,
        (⟨⟨1, 0, 0⟩, ⟨0, 0, 0⟩, ⟨2, 0, 0⟩, (10 : ℚ)⟩ : MRow) = processM dmap12 tr ∧
        ((⟨⟨1, 0, 0⟩, ⟨0, 0, 0⟩, ⟨2, 0, 0⟩, (10 : ℚ)⟩ : MRow).m = 10 ∨
          ∃ p ∈ probesOf tr,
            (⟨⟨1, 0, 0⟩, ⟨0, 0, 0⟩, ⟨2, 0, 0⟩, (10 : ℚ)⟩ : MRow).m = dmap12 p) ∧
        (⟨⟨1, 0, 0⟩, ⟨0, 0, 0⟩, ⟨2, 0, 0⟩, (10 : ℚ)⟩ : MRow).m ≤ 10 ∧
        ∀ p ∈ probesOf tr,
          (⟨⟨1, 0, 0⟩, ⟨0, 0, 0⟩, ⟨2, 0, 0⟩, (10 : ℚ)⟩ : MRow).m ≤ dmap12 p :=
  margin_rows_characterized [[trAx, trAx]] dmap12 0
    [⟨⟨1, 0, 0⟩, ⟨0, 0, 0⟩, ⟨2, 0, 0⟩, 10⟩, zeroMRow]
    (by rw [show generate_margin_trajectories [[trAx, trAx]] dmap12 0 =
          [[⟨⟨1, 0, 0⟩, ⟨0, 0, 0⟩, ⟨2, 0, 0⟩, 10⟩, zeroMRow]] from by with_unfolding_all decide]
        exact List.mem_singleton.mpr rfl)
    ⟨⟨1, 0, 0⟩, ⟨0, 0, 0⟩, ⟨2, 0, 0⟩, 10⟩ (List.mem_cons_self _ _)

/-- Claim C2 (code bug, evaluated): the per-target list returned by
    `generate_margin_trajectories` is NOT sorted descending by margin: for
    three clean trajectories with successive margins 8, 3, 5 the returned
    margins are `[3, 8, 0]` (reverse insertion order, with the most recently
    inserted row dropped by the final `[1:]` slice and the zeros row kept),
    and 3 < 8 violates `margin[i] ≥ margin[i+1]`; the source performs no
    sort although its docstring says it "orders the valid trajectories". -/
theorem margin_output_not_sorted_eval :
    ((generate_margin_trajectories [[trRowAt 0, trRowAt 1, trRowAt 2]] dmapYsplit
          0).headD []).map MRow.m = [3, 8, 0] ∧
      ¬ ((3 : ℚ) ≥ 8) :=
  ⟨by with_unfolding_all decide, by with_unfolding_all decide⟩

/-- Claim C3 (code bug, evaluated): `calculate_valid_lines` violates
    collision soundness: a single collision-free trajectory (`trAx` over an
    all-free collision map) is DISCARDED — the returned per-target array is
    just the all-zeros initializer row, because the final `[1:]` slice
    (commented "Remove zeros row") removes the most recently prepended valid
    row instead of the trailing zeros row. -/
theorem valid_lines_drops_clean_trajectory_eval :
    calculate_valid_lines [[trAx]] maskFree = [[zeroVRow]] ∧
      trajOk maskFree trAx = true ∧ processV trAx ≠ zeroVRow :=
  ⟨by with_unfolding_all decide, by with_unfolding_all decide, by with_unfolding_all decide⟩

/-- Claim C4 (counterexample): `generate_entry_points` does NOT return
    `min(n, rawCount)` points: with one raw nonzero voxel and `n = 3` it
    returns three copies of that voxel, not one point. -/
theorem entry_points_count_cex :
    generate_entry_points [(⟨0, 0, 0⟩ : P3)] 3 =
        some [⟨0, 0, 0⟩, ⟨0, 0, 0⟩, ⟨0, 0, 0⟩] ∧
      ¬ ((3 : ℕ) = min 3 1) :=
  ⟨by with_unfolding_all decide, by with_unfolding_all decide⟩

/-- Claim C4 (amended and proved): for every nonempty raw nonzero-voxel list
    and every `n`, `generate_entry_points` succeeds and returns EXACTLY `n`
    points, each present in the raw list; when `rawCount < n` the stride is
    zero and points repeat — the result is never shorter than `n`. -/
theorem entry_points_exact_n (pts : List P3) (n : ℕ) (hne : pts ≠ []) :
    ∃ l, generate_entry_points pts n = some l ∧ l.length = n ∧
      ∀ p ∈ l, p ∈ pts := by
  have hlen : 0 < pts.length := List.length_pos.mpr hne
  have hidx : ∀ i, i < n → pts.length / n * i < pts.length := by
    intro i hi
    have h3 : pts.length / n * n ≤ pts.length := Nat.div_mul_le_self _ _
    generalize hgen : pts.length / n = q at h3 ⊢
    by_cases hq : q = 0
    · rw [hq, Nat.zero_mul]
      exact hlen
    · have hq1 : 1 ≤ q := Nat.pos_of_ne_zero hq
      have h1 : q * i ≤ q * (n - 1) := Nat.mul_le_mul_left _ (by omega)
      have h2 : q * (n - 1) + q = q * n := by
        rw [← Nat.mul_succ]
        congr 1
        omega
      omega
  have hcond : (((List.range n).map fun i => pts.length / n * i).all fun j =>
      decide (j < pts.length)) = true := by
    rw [List.all_eq_true]
    intro j hj
    rw [List.mem_map] at hj
    obtain ⟨i, hi, rfl⟩ := hj
    rw [List.mem_range] at hi
    simpa using hidx i hi
  refine ⟨((List.range n).map fun i => pts.length / n * i).map
      fun j => pts.getD j ⟨0, 0, 0⟩, ?_, ?_, ?_⟩
  · simp only [generate_entry_points]
    rw [if_pos hcond]
  · rw [List.length_map, List.length_map, List.length_range]
  · intro p hp
    rw [List.mem_map] at hp
    obtain ⟨j, hj, rfl⟩ := hp
    rw [List.mem_map] at hj
    obtain ⟨i, hi, rfl⟩ := hj
    rw [List.mem_range] at hi
    exact getD_mem _ _ _ (hidx i hi)

/-- Claim C4 witness: the amended claim instantiated at a one-point raw list
    and n = 2. -/
theorem entry_points_exact_n_witness :
    ∃ l, generate_entry_points [(⟨0, 0, 0⟩ : P3)] 2 = some l ∧ l.length = 2 ∧
      ∀ p ∈ l, p ∈ [(⟨0, 0, 0⟩ : P3)] :=
  entry_points_exact_n [⟨0, 0, 0⟩] 2 (by with_unfolding_all decide)

/-- Claim C5 (counterexample): for a NEGATIVE cutoff the claimed bounds fail:
    with the all-forbidden mask (EDT identically 0, a legitimate transform
    output) and cutoff -1, the produced value at the origin is -1, which is
    not in [0, cutoff] and not 0 although the mask is 1 there. -/
theorem distance_map_negative_cutoff_cex :
    edtOk (fun _ => 0) (fun _ => true) ∧
      generate_distance_map (fun _ => 0) 1 1 1 (-1) ⟨0, 0, 0⟩ = -1 ∧
      ¬ ((0 : ℚ) ≤ -1) ∧
      generate_distance_map (fun _ => 0) 1 1 1 (-1) ⟨0, 0, 0⟩ ≠ 0 :=
  ⟨⟨fun _ => le_refl 0, fun _ _ => rfl⟩, by with_unfolding_all decide, by with_unfolding_all decide, by with_unfolding_all decide⟩

/-- Claim C5 (amended and proved): for every mask, affine diagonal and every
    cutoff ≥ 0, given the scipy EDT contract (`edtOk`: nonnegative values,
    zero at forbidden voxels), every voxel of `generate_distance_map` lies in
    [0, cutoff] and every forbidden voxel maps to 0. -/
theorem distance_map_bounds
    (edt : P3 → ℚ) (mask : P3 → Bool) (a0 a1 a2 cutoff : ℚ)
    (hedt : edtOk edt mask) (hcut : 0 ≤ cutoff) (p : P3) :
    0 ≤ generate_distance_map edt a0 a1 a2 cutoff p ∧
      generate_distance_map edt a0 a1 a2 cutoff p ≤ cutoff ∧
      (mask p = true → generate_distance_map edt a0 a1 a2 cutoff p = 0) := by
  have hvox : 0 ≤ voxDim a0 a1 a2 := by
    unfold voxDim
    positivity
  have hd : 0 ≤ edt p * voxDim a0 a1 a2 := mul_nonneg (hedt.1 p) hvox
  unfold generate_distance_map
  split_ifs with h
  · exact ⟨hcut, le_refl cutoff, fun hm =>
      absurd h (by rw [hedt.2 p hm, zero_mul]; exact not_lt.mpr hcut)⟩
  · exact ⟨hd, not_lt.mp h, fun hm => by rw [hedt.2 p hm, zero_mul]⟩

/-- Claim C5 witness: the amended bounds at the all-forbidden mask, unit
    affine, default cutoff 15 and the origin voxel. -/
theorem distance_map_bounds_witness :
    0 ≤ generate_distance_map (fun _ => 0) 1 1 1 15 ⟨0, 0, 0⟩ ∧
      generate_distance_map (fun _ => 0) 1 1 1 15 ⟨0, 0, 0⟩ ≤ 15 ∧
      ((fun _ => true) (⟨0, 0, 0⟩ : P3) = true →
        generate_distance_map (fun _ => 0) 1 1 1 15 ⟨0, 0, 0⟩ = 0) :=
  distance_map_bounds (fun _ => 0) (fun _ => true) 1 1 1 15
    ⟨fun _ => le_refl 0, fun _ _ => rfl⟩ (by norm_num) ⟨0, 0, 0⟩

/-- Claim C6 (code bug, evaluated): the voxel walk performs the raw numpy
    lookup with NO bounds handling: on a 3×3×3 volume with an all-free
    collision map, the walk of direction (1,0,0) from entry (0,0,0) toward
    stop (5,0,0) probes voxel x = 3 and raises IndexError (modelled as
    `none`) instead of applying any fail-safe policy. -/
theorem collision_walk_oob_crash_eval :
    pathOkBounded 3 3 3 (fun _ => false) ⟨1, 0, 0⟩ ⟨5, 0, 0⟩ ⟨0, 0, 0⟩
        (walkCount ⟨1, 0, 0⟩ ⟨0, 0, 0⟩ ⟨5, 0, 0⟩) = none := by
  with_unfolding_all decide

/-- Claim C7 (counterexample): the terminal point is NOT the componentwise
    nearest-integer rounding: for target (4,3,0), entry (0,0,0), overshoot 3
    and voxel size 1, the float terminal is (6.4, 4.8, 0); the source's
    `dtype=int` cast truncates to (6,4,0) while the spec's `round` gives
    (6,5,0). -/
theorem terminal_not_rounded_cex :
    stop_point ⟨4, 3, 0⟩ ⟨0, 0, 0⟩ 3 1 = ⟨6, 4, 0⟩ ∧
      specRoundTerminal ⟨4, 3, 0⟩ ⟨0, 0, 0⟩ 3 1 = ⟨6, 5, 0⟩ ∧
      (⟨6, 4, 0⟩ : P3) ≠ ⟨6, 5, 0⟩ := by
  have hn : npLinalgNorm ⟨(4 : ℝ) - 0, 3 - 0, 0 - 0⟩ = 5 :=
    npLinalgNorm_eval _ _ _ 5 (by norm_num) (by norm_num)
  have hdir : directionOf ⟨4, 3, 0⟩ ⟨0, 0, 0⟩ = ⟨4 / 5, 3 / 5, 0⟩ := by
    simp only [directionOf]
    rw [hn]
    simp only [R3.mk.injEq]
    norm_num
  refine ⟨?_, ?_, ?_⟩
  · simp only [stop_point]
    rw [hdir]
    simp only [P3.mk.injEq]
    refine ⟨?_, ?_, ?_⟩
    · rw [show (4 : ℝ) + 4 / 5 * (3 / 1) = 32 / 5 by norm_num]
      exact intCastR_eq _ 6 (by norm_num) (by norm_num) (by norm_num)
    · rw [show (3 : ℝ) + 3 / 5 * (3 / 1) = 24 / 5 by norm_num]
      exact intCastR_eq _ 4 (by norm_num) (by norm_num) (by norm_num)
    · rw [show (0 : ℝ) + 0 * (3 / 1) = 0 by norm_num]
      exact intCastR_eq _ 0 (by norm_num) (by norm_num) (by norm_num)
  · simp only [specRoundTerminal]
    rw [hdir]
    simp only [P3.mk.injEq]
    refine ⟨?_, ?_, ?_⟩
    · exact Int.floor_eq_iff.mpr ⟨by norm_num, by norm_num⟩
    · exact Int.floor_eq_iff.mpr ⟨by norm_num, by norm_num⟩
    · exact Int.floor_eq_iff.mpr ⟨by norm_num, by norm_num⟩
  · intro hcontra
    have := congrArg P3.y hcontra
    norm_num at this

/-- Claim C7 (amended and proved): the terminal is the componentwise
    truncation toward zero (Python int cast) of
    `target + direction * (overshoot / voxel_size)` — floor, not nearest
    rounding, for nonnegative components; the overshoot scenario still
    holds: with overshoot 3, voxel size 1, target (9,5,5) and entry (0,5,5)
    (direction (1,0,0)) the terminal equals (12,5,5) exactly. -/
theorem terminal_truncation_and_overshoot :
    stop_point ⟨9, 5, 5⟩ ⟨0, 5, 5⟩ 3 1 = ⟨12, 5, 5⟩ ∧
      ∀ (t e : R3) (o v : ℝ),
        stop_point t e o v =
          ⟨intCastR (t.x + (directionOf t e).x * (o / v)),
            intCastR (t.y + (directionOf t e).y * (o / v)),
            intCastR (t.z + (directionOf t e).z * (o / v))⟩ := by
  constructor
  · have hn : npLinalgNorm ⟨(9 : ℝ) - 0, 5 - 5, 5 - 5⟩ = 9 :=
      npLinalgNorm_eval _ _ _ 9 (by norm_num) (by norm_num)
    have hdir : directionOf ⟨9, 5, 5⟩ ⟨0, 5, 5⟩ = ⟨1, 0, 0⟩ := by
      simp only [directionOf]
      rw [hn]
      simp only [R3.mk.injEq]
      norm_num
    simp only [stop_point]
    rw [hdir]
    simp only [P3.mk.injEq]
    refine ⟨?_, ?_, ?_⟩
    · rw [show (9 : ℝ) + 1 * (3 / 1) = 12 by norm_num]
      exact intCastR_eq _ 12 (by norm_num) (by norm_num) (by norm_num)
    · rw [show (5 : ℝ) + 0 * (3 / 1) = 5 by norm_num]
      exact intCastR_eq _ 5 (by norm_num) (by norm_num) (by norm_num)
    · rw [show (5 : ℝ) + 0 * (3 / 1) = 5 by norm_num]
      exact intCastR_eq _ 5 (by norm_num) (by norm_num) (by norm_num)
  · intro t e o v
    rfl

/-- Claim C8 (confirmed): for every target × entry pair with target ≠ entry,
    the direction vector stored by `calculate_all_lines` (built by `mkARow`)
    has Euclidean norm exactly 1. -/
theorem direction_unit_norm (tp ep : R3) (o v : ℝ) (hne : tp ≠ ep) :
    npLinalgNorm (mkARow tp ep o v).dir = 1 := by
  obtain ⟨tx, ty, tz⟩ := tp
  obtain ⟨ex, ey, ez⟩ := ep
  have hsub : ¬ (tx = ex ∧ ty = ey ∧ tz = ez) := by
    rintro ⟨h1, h2, h3⟩
    exact hne (by rw [h1, h2, h3])
  have hS : 0 < (tx - ex) ^ 2 + (ty - ey) ^ 2 + (tz - ez) ^ 2 := by
    rcases not_and_or.mp hsub with h | h23
    · have hx : tx - ex ≠ 0 := sub_ne_zero.mpr h
      have h2 := (sq_nonneg (tx - ex)).lt_of_ne (Ne.symm (pow_ne_zero 2 hx))
      have h3 := sq_nonneg (ty - ey)
      have h4 := sq_nonneg (tz - ez)
      linarith
    · rcases not_and_or.mp h23 with h | h
      · have hy : ty - ey ≠ 0 := sub_ne_zero.mpr h
        have h2 := (sq_nonneg (ty - ey)).lt_of_ne (Ne.symm (pow_ne_zero 2 hy))
        have h3 := sq_nonneg (tx - ex)
        have h4 := sq_nonneg (tz - ez)
        linarith
      · have hz : tz - ez ≠ 0 := sub_ne_zero.mpr h
        have h2 := (sq_nonneg (tz - ez)).lt_of_ne (Ne.symm (pow_ne_zero 2 hz))
        have h3 := sq_nonneg (tx - ex)
        have h4 := sq_nonneg (ty - ey)
        linarith
  simp only [mkARow, directionOf, npLinalgNorm]
  rw [div_pow, div_pow, div_pow, div_add_div_same, div_add_div_same,
    Real.sq_sqrt hS.le, div_self hS.ne', Real.sqrt_one]

/-- Claim C8 witness: the unit-norm property at target (1,0,0) and entry
    (0,0,0). -/
theorem direction_unit_norm_witness :
    ((⟨1, 0, 0⟩ : R3) ≠ ⟨0, 0, 0⟩) ∧
      npLinalgNorm (mkARow ⟨1, 0, 0⟩ ⟨0, 0, 0⟩ 3 1).dir = 1 := by
  have hne : (⟨1, 0, 0⟩ : R3) ≠ ⟨0, 0, 0⟩ := by
    intro h
    have := congrArg R3.x h
    norm_num at this
  exact ⟨hne, direction_unit_norm _ _ 3 1 hne⟩

/-- Claim C9 (confirmed): in the explicit-heap embedding — where every numpy
    array creation allocates a fresh slot at or above the allocation counter
    `next` and every in-place `arr[...] = ...` statement writes to the slot
    of the array it targets — none of the four core functions writes to any
    caller-owned slot below `next`: the entry-point array, target-point
    arrays, input trajectory arrays, collision map / forbidden mask and
    distance map are unchanged after each call. -/
theorem core_functions_no_input_mutation
    (h : Heap) (next i : ℕ) (targetIds : List ℕ) (entriesId : ℕ) (o v : ℝ)
    (pathIds : List ℕ) (mapId : ℕ) (trajIds : List ℕ) (dmapId : ℕ) (marg : ℚ)
    (maskId : ℕ) (edtf : (P3 → ℚ) → P3 → ℚ) (a0 a1 a2 cutoff : ℚ)
    (hi : i < next) :
    (calculate_all_lines_heap h next targetIds entriesId o v).1 i = h i ∧
      (calculate_valid_lines_heap h next pathIds mapId).1 i = h i ∧
      (generate_margin_trajectories_heap h next trajIds dmapId marg).1 i = h i ∧
      (generate_distance_map_heap h next maskId edtf a0 a1 a2 cutoff).1 i = h i :=
  ⟨calculate_all_lines_heap_frame h next targetIds entriesId o v i hi,
    calculate_valid_lines_heap_frame h next pathIds mapId i hi,
    generate_margin_trajectories_heap_frame h next trajIds dmapId marg i hi,
    generate_distance_map_heap_frame h next maskId edtf a0 a1 a2 cutoff i hi⟩

/-- Claim C9 witness: no-mutation of heap slot 0 for all four functions on a
    concrete heap with allocation counter 1. -/
theorem core_functions_no_input_mutation_witness :
    (calculate_all_lines_heap (fun _ => Arr.aNone) 1 [] 0 1 1).1 0 =
        (fun _ => Arr.aNone : Heap) 0 ∧
      (calculate_valid_lines_heap (fun _ => Arr.aNone) 1 [] 0).1 0 =
        (fun _ => Arr.aNone : Heap) 0 ∧
      (generate_margin_trajectories_heap (fun _ => Arr.aNone) 1 [] 0 0).1 0 =
        (fun _ => Arr.aNone : Heap) 0 ∧
      (generate_distance_map_heap (fun _ => Arr.aNone) 1 0 (fun f => f) 1 1 1
          15).1 0 = (fun _ => Arr.aNone : Heap) 0 :=
  core_functions_no_input_mutation (fun _ => Arr.aNone) 1 0 [] 0 1 1 [] 0 [] 0 0
    0 (fun f => f) 1 1 1 15 (by with_unfolding_all decide)

/-- Claim C10 (counterexample): the claim's conclusion fails on the code:
    the trajectory `trAx`, whose entry voxel (0,0,0) is the only forbidden
    voxel and whose probed voxels are all free, passes the collision walk
    but is NOT retained — the returned array holds only the zeros row,
    because the final `[1:]` slice drops the most recently inserted row;
    moreover, for a sub-unit direction (2/5,0,0) a truncated probe lands
    back in the entry voxel, so "the entry voxel itself is never tested" is
    also false in general. -/
theorem entry_voxel_trajectory_dropped_cex :
    maskOrigin ⟨0, 0, 0⟩ = true ∧ trajOk maskOrigin trAx = true ∧
      calculate_valid_lines [[trAx]] maskOrigin = [[zeroVRow]] ∧
      processV trAx ≠ zeroVRow ∧
      probesOf trFrac = [⟨0, 0, 0⟩, ⟨0, 0, 0⟩, ⟨1, 0, 0⟩] :=
  ⟨by with_unfolding_all decide, by with_unfolding_all decide, by with_unfolding_all decide, by with_unfolding_all decide, by with_unfolding_all decide⟩

/-- Claim C10 (amended and proved): the walk probes exactly the positions
    `entry + k·direction` for `k = 1 .. walkCount` — the untranslated entry
    position (k = 0) is never probed, although a truncated probe may still
    coincide with the entry voxel; a trajectory all of whose probed voxels
    are free passes the collision check (`path_ok` stays true) regardless of
    the mask value at its entry voxel, and is inserted into the valid-path
    accumulator — it appears in the returned output only when it is not the
    most recently inserted row for its target, since the final `[1:]` slice
    drops that row. -/
theorem walk_skips_entry_probe (d e T : V3) (mask : P3 → Bool) (tr : TrajRow)
    (tlist : List TrajRow) :
    walkPts d e T =
        ((List.range (walkCount d e T)).map fun k => stepN e d (k + 1)) ∧
      ((∀ p ∈ probesOf tr, mask p = false) → trajOk mask tr = true) ∧
      (tr ∈ tlist → trajOk mask tr = true →
        processV tr ∈ validAccum mask tlist) := by
  refine ⟨walkPts_eq_range d e T, ?_, ?_⟩
  · intro hfree
    unfold trajOk
    rw [List.all_eq_true]
    intro p hp
    simp [hfree p hp]
  · intro htr hok
    unfold validAccum
    exact foldl_insert_mem (fun x => trajOk mask x = true) processV tlist
      [zeroVRow] tr htr hok

/-- Claim C10 witness: the amended statement instantiated on `trAx` with the
    origin-only forbidden mask. -/
theorem walk_skips_entry_probe_witness :
    walkPts ⟨1, 0, 0⟩ ⟨0, 0, 0⟩ ⟨2, 0, 0⟩ =
        ((List.range (walkCount ⟨1, 0, 0⟩ ⟨0, 0, 0⟩ ⟨2, 0, 0⟩)).map
          fun k => stepN ⟨0, 0, 0⟩ ⟨1, 0, 0⟩ (k + 1)) ∧
      trajOk maskOrigin trAx = true ∧
      processV trAx ∈ validAccum maskOrigin [trAx] := by
  have hfree : ∀ p ∈ probesOf trAx, maskOrigin p = false := by
    rw [show probesOf trAx = [⟨1, 0, 0⟩, ⟨2, 0, 0⟩] from by with_unfolding_all decide]
    intro p hp
    rcases List.mem_cons.mp hp with rfl | hp'
    · with_unfolding_all decide
    · rcases List.mem_cons.mp hp' with rfl | hnil
      · with_unfolding_all decide
      · exact absurd hnil (List.not_mem_nil p)
  obtain ⟨h1, h2, h3⟩ :=
    walk_skips_entry_probe ⟨1, 0, 0⟩ ⟨0, 0, 0⟩ ⟨2, 0, 0⟩ maskOrigin trAx [trAx]
  exact ⟨h1, h2 hfree, h3 (List.mem_singleton.mpr rfl) (h2 hfree)⟩

end PathPlanning
